import Mathlib

/-
  Verification of the C2PA text-manifest wrapper codec and the JUMBF
  structural validator.

  Texts are modelled as lists of Unicode scalar values (`List Nat`); byte
  buffers as lists of naturals below 256.  Byte offsets into a text follow
  UTF-8 (`utf8Len`), matching Rust's `str::char_indices` / byte slicing.
  The external NFC normalization pass (the `unicode_normalization` crate)
  is modelled as an explicit function parameter `nfc`; theorems that depend
  on its behaviour take the needed properties as hypotheses.
  Diagnostic strings (issue messages, offsets, contexts) carry no control
  flow and are omitted from the validator's result model; the issue codes
  and the `valid` flag are modelled exactly.
-/

namespace C2paText

-- ---------------------- Constants (src/rust/src/lib.rs) ---------------------

def MAGIC : List Nat := [0x43, 0x32, 0x50, 0x41, 0x54, 0x58, 0x54, 0x00]

def VERSION : Nat := 1

def HEADER_SIZE : Nat := 13

def ZWNBSP : Nat := 0xFEFF

def VS_START : Nat := 0xFE00

def VS_END : Nat := 0xFE0F

def VS_SUP_START : Nat := 0xE0100

def VS_SUP_END : Nat := 0xE01EF

inductive Error where
  | InvalidByte
  | InvalidVariationSelector
  | TooShort
  | InvalidMagic
  | UnsupportedVersion
  | Truncated
  | MultipleWrappers
deriving DecidableEq, Repr

-- ---------------------- Byte <-> codepoint codec ----------------------------

def byte_to_vs (b : Nat) : Nat :=
  if b ≤ 15 then VS_START + b else VS_SUP_START + (b - 16)

def vs_to_byte (c : Nat) : Option Nat :=
  if VS_START ≤ c ∧ c ≤ VS_END then some (c - VS_START)
  else if VS_SUP_START ≤ c ∧ c ≤ VS_SUP_END then some (c - VS_SUP_START + 16)
  else none

/-- Big-endian bytes of a 32-bit value, as pushed by `encode_wrapper`
(`(len >> 24) & 0xFF`, ...). -/
def be32 (n : Nat) : List Nat :=
  [n / 2 ^ 24 % 256, n / 2 ^ 16 % 256, n / 2 ^ 8 % 256, n % 256]

/-- `encode_wrapper`: marker, 13 header codepoints (magic, version, big-endian
length as `u32`, i.e. the payload length modulo 2^32), then one codepoint per
payload byte. -/
def encode_wrapper (manifest_bytes : List Nat) : List Nat :=
  ZWNBSP :: (MAGIC.map byte_to_vs) ++ [byte_to_vs VERSION]
    ++ (be32 (manifest_bytes.length % 2 ^ 32)).map byte_to_vs
    ++ manifest_bytes.map byte_to_vs

/-- `embed_manifest`: NFC-normalize the host text, then append the wrapper.
`nfc` models the external normalization pass. -/
def embed_manifest (nfc : List Nat → List Nat) (text : List Nat)
    (manifest_bytes : List Nat) : List Nat :=
  nfc text ++ encode_wrapper manifest_bytes

-- ---------------------- UTF-8 byte geometry ---------------------------------

/-- Number of UTF-8 bytes of a scalar value (Rust `char::len_utf8`). -/
def utf8Len (c : Nat) : Nat :=
  if c < 0x80 then 1 else if c < 0x800 then 2 else if c < 0x10000 then 3 else 4

def byteLen : List Nat → Nat
  | [] => 0
  | c :: rest => utf8Len c + byteLen rest

/-- `str::char_indices` starting at byte offset `off`. -/
def charIndices (off : Nat) : List Nat → List (Nat × Nat)
  | [] => []
  | c :: rest => (off, c) :: charIndices (off + utf8Len c) rest

/-- Byte slice `text[..n]` (at a character boundary). -/
def byteTake (n : Nat) : List Nat → List Nat
  | [] => []
  | c :: rest => if utf8Len c ≤ n then c :: byteTake (n - utf8Len c) rest else []

/-- Byte slice `text[n..]` (at a character boundary). -/
def byteDrop (n : Nat) : List Nat → List Nat
  | [] => []
  | c :: rest => if utf8Len c ≤ n then byteDrop (n - utf8Len c) rest else c :: rest

-- ---------------------- Scan and extract ------------------------------------

/-- The greedy decodable run after a marker: decode codepoints until the first
one that is not a variation selector (the inner `while` of `extract_manifest`). -/
def takeB : List Nat → List Nat
  | [] => []
  | c :: rest =>
    match vs_to_byte c with
    | some b => b :: takeB rest
    | none => []

/-- Big-endian `u32` read from bytes 9..12 of a decoded run. -/
def declaredLen (bs : List Nat) : Nat :=
  bs.getD 9 0 * 2 ^ 24 + bs.getD 10 0 * 2 ^ 16 + bs.getD 11 0 * 2 ^ 8 + bs.getD 12 0

/-- The header checks of `extract_manifest`: at least 13 decoded bytes, magic,
version, and declared length fitting inside the decoded run. -/
def headerOk (bs : List Nat) : Bool :=
  decide (HEADER_SIZE ≤ bs.length) && decide (bs.take 8 = MAGIC)
    && decide (bs.getD 8 0 = VERSION)
    && decide (HEADER_SIZE + declaredLen bs ≤ bs.length)

/-- One recognized wrapper: marker byte offset, end byte offset, payload. -/
abbrev Found : Type := Nat × Nat × List Nat

/-- The scan loop of `extract_manifest`, fuel-indexed so that it is structurally
recursive (the fuel only needs to cover the number of loop iterations, which is
at most the number of characters; `scanLoop` below supplies it). -/
def scanLoopF (total : Nat) : Nat → List (Nat × Nat) → Option Found →
    Except Error (Option Found)
  | _, [], acc => .ok acc
  | 0, _ :: _, acc => .ok acc
  | fuel + 1, (idx, c) :: rest, acc =>
    let bs := takeB (rest.map Prod.snd)
    if c = ZWNBSP ∧ headerOk bs = true then
      match acc with
      | some _ => .error .MultipleWrappers
      | none =>
        let rest2 := rest.drop bs.length
        let endIdx := match rest2 with
          | [] => total
          | (i2, _) :: _ => i2
        scanLoopF total fuel rest2
          (some (idx, endIdx, (bs.drop HEADER_SIZE).take (declaredLen bs)))
    else
      scanLoopF total fuel rest acc

def scanLoop (total : Nat) (l : List (Nat × Nat)) (acc : Option Found) :
    Except Error (Option Found) :=
  scanLoopF total l.length l acc

structure ExtractionResult where
  manifest : Option (List Nat)
  clean_text : List Nat
  offset : Option Nat
  length : Option Nat
deriving DecidableEq, Repr

/-- `extract_manifest`: scan the text for wrappers; on exactly one recognized
wrapper, return its payload, the text with the wrapper span byte-sliced out and
re-normalized, and the span's byte offset and byte length in the original text. -/
def extract_manifest (nfc : List Nat → List Nat) (text : List Nat) :
    Except Error ExtractionResult :=
  match scanLoop (byteLen text) (charIndices 0 text) none with
  | .error e => .error e
  | .ok none => .ok ⟨none, nfc text, none, none⟩
  | .ok (some (s, e, p)) =>
    .ok ⟨some p, nfc (byteTake s text ++ byteDrop e text), some s, some (e - s)⟩

/-- Number of independently recognized wrappers in a text: the scan's
recognition predicate, applied at every marker, continuing past each recognized
span (the quantity `extract_manifest` guards with `MultipleWrappers`). -/
def countWF : Nat → List Nat → Nat
  | _, [] => 0
  | 0, _ :: _ => 0
  | fuel + 1, c :: rest =>
    let bs := takeB rest
    if c = ZWNBSP ∧ headerOk bs = true then 1 + countWF fuel (rest.drop bs.length)
    else countWF fuel rest

def countW (l : List Nat) : Nat := countWF l.length l

-- ---------------------- Validator (src/rust/src/validator.rs) ---------------

inductive ValidationCode where
  | Valid
  | CorruptedWrapper
  | MultipleWrappers
  | InvalidMagic
  | UnsupportedVersion
  | LengthMismatch
  | EmptyManifest
  | InvalidJumbfHeader
  | InvalidJumbfBoxSize
  | MissingDescriptionBox
  | InvalidC2paUuid
  | TruncatedJumbf
deriving DecidableEq, Repr

/-- Validation outcome: the `valid` flag and the ordered issue codes
(diagnostic messages/offsets omitted, see the header comment). -/
structure ValidationResult where
  valid : Bool
  issues : List ValidationCode
deriving DecidableEq, Repr

def ValidationResult.primary_code (r : ValidationResult) : ValidationCode :=
  r.issues.headD .Valid

def JUMBF_SUPERBOX_TYPE : List Nat := [0x6A, 0x75, 0x6D, 0x62]

def JUMBF_DESC_TYPE : List Nat := [0x6A, 0x75, 0x6D, 0x64]

def C2PA_MANIFEST_STORE_UUID : List Nat :=
  [0x63, 0x32, 0x70, 0x61, 0x00, 0x11, 0x00, 0x10,
   0x80, 0x00, 0x00, 0xAA, 0x00, 0x38, 0x9B, 0x71]

/-- Big-endian `u32` read at byte offset `i`. -/
def readBE32 (bytes : List Nat) (i : Nat) : Nat :=
  bytes.getD i 0 * 2 ^ 24 + bytes.getD (i + 1) 0 * 2 ^ 16
    + bytes.getD (i + 2) 0 * 2 ^ 8 + bytes.getD (i + 3) 0

/-- Big-endian `u64` read at byte offset `i`. -/
def readBE64 (bytes : List Nat) (i : Nat) : Nat :=
  bytes.getD i 0 * 2 ^ 56 + bytes.getD (i + 1) 0 * 2 ^ 48
    + bytes.getD (i + 2) 0 * 2 ^ 40 + bytes.getD (i + 3) 0 * 2 ^ 32
    + bytes.getD (i + 4) 0 * 2 ^ 24 + bytes.getD (i + 5) 0 * 2 ^ 16
    + bytes.getD (i + 6) 0 * 2 ^ 8 + bytes.getD (i + 7) 0

/-- The effective box length (Rust's `effective_size` local): the buffer
length when the 4-byte size is 0, the 64-bit extension when it is 1, else the
4-byte size itself. -/
def effectiveSize (jumbf_bytes : List Nat) : Nat :=
  if readBE32 jumbf_bytes 0 = 0 then jumbf_bytes.length
  else if readBE32 jumbf_bytes 0 = 1 then readBE64 jumbf_bytes 8
  else readBE32 jumbf_bytes 0

/-- The box header length (Rust's `header_size` local): 16 with a 64-bit size
extension, 8 otherwise. -/
def headerSize (jumbf_bytes : List Nat) : Nat :=
  if readBE32 jumbf_bytes 0 = 1 then 16 else 8

/-- `validate_jumbf_structure` (validator.rs, lines 151-300), with the same
early-return structure as the source (the Rust local bindings `box_size`,
`box_type`, `effective_size`, `header_size` are inlined or named above). -/
def validate_jumbf_structure (jumbf_bytes : List Nat) (strict : Bool) :
    ValidationResult :=
  if jumbf_bytes.length = 0 then ⟨false, [.EmptyManifest]⟩
  else if jumbf_bytes.length < 8 then ⟨false, [.InvalidJumbfHeader]⟩
  else if readBE32 jumbf_bytes 0 = 1 ∧ jumbf_bytes.length < 16 then
    ⟨false, [.TruncatedJumbf]⟩
  else if 2 ≤ readBE32 jumbf_bytes 0 ∧ readBE32 jumbf_bytes 0 < 8 then
    ⟨false, [.InvalidJumbfBoxSize]⟩
  else if jumbf_bytes.length < effectiveSize jumbf_bytes then
    ⟨false, [.TruncatedJumbf]⟩
  else if (jumbf_bytes.drop 4).take 4 ≠ JUMBF_SUPERBOX_TYPE then
    ⟨false, [.InvalidJumbfHeader]⟩
  else if strict then
    if jumbf_bytes.length < headerSize jumbf_bytes + 8 then
      ⟨false, [.MissingDescriptionBox]⟩
    else if (jumbf_bytes.drop (headerSize jumbf_bytes + 4)).take 4 ≠ JUMBF_DESC_TYPE then
      ⟨false, [.MissingDescriptionBox]⟩
    else if headerSize jumbf_bytes + 8 + 16 ≤ jumbf_bytes.length
        ∧ (jumbf_bytes.drop (headerSize jumbf_bytes + 8)).take 16
          ≠ C2PA_MANIFEST_STORE_UUID then
      ⟨false, [.InvalidC2paUuid]⟩
    else ⟨true, []⟩
  else ⟨true, []⟩

/-- `validate_wrapper_bytes` (validator.rs, lines 333-416). -/
def validate_wrapper_bytes (wrapper_bytes : List Nat) : ValidationResult :=
  if wrapper_bytes.length < HEADER_SIZE then ⟨false, [.CorruptedWrapper]⟩
  else if wrapper_bytes.take 8 ≠ MAGIC then ⟨false, [.InvalidMagic]⟩
  else if wrapper_bytes.getD 8 0 ≠ VERSION then ⟨false, [.UnsupportedVersion]⟩
  else if readBE32 wrapper_bytes 9 ≠ wrapper_bytes.length - HEADER_SIZE then
    ⟨false, [.LengthMismatch]⟩
  else
    let j := validate_jumbf_structure (wrapper_bytes.drop HEADER_SIZE) false
    ⟨j.valid, j.issues⟩

instance : DecidableEq (Except Error ExtractionResult) := fun a b =>
  match a, b with
  | .ok x, .ok y => if h : x = y then isTrue (by rw [h]) else isFalse (by simp [h])
  | .error x, .error y => if h : x = y then isTrue (by rw [h]) else isFalse (by simp [h])
  | .ok _, .error _ => isFalse (by simp)
  | .error _, .ok _ => isFalse (by simp)

/-- Does a greedy decodable run stop (immediately) at this list: empty, or a
head that is not a variation selector. -/
def stops : List Nat → Bool
  | [] => true
  | c :: _ => (vs_to_byte c).isNone

-- ---------------------- Basic codec lemmas ----------------------------------

theorem vs_to_byte_ZWNBSP : vs_to_byte ZWNBSP = none := by decide

theorem vs_to_byte_byte_to_vs {b : Nat} (hb : b < 256) :
    vs_to_byte (byte_to_vs b) = some b := by
  unfold vs_to_byte byte_to_vs VS_START VS_END VS_SUP_START VS_SUP_END
  split <;> split <;> simp_all <;> omega

theorem utf8Len_pos (c : Nat) : 1 ≤ utf8Len c := by
  unfold utf8Len; split <;> [skip; split <;> [skip; split]] <;> omega

theorem byteLen_append (l1 l2 : List Nat) :
    byteLen (l1 ++ l2) = byteLen l1 + byteLen l2 := by
  induction l1 with
  | nil => simp [byteLen]
  | cons c rest ih => simp [byteLen, ih]; omega

theorem byteLen_replicate (n c : Nat) :
    byteLen (List.replicate n c) = n * utf8Len c := by
  induction n with
  | zero => simp [byteLen]
  | succ m ih => simp [List.replicate_succ, byteLen, ih]; ring

-- ---------------------- charIndices lemmas ----------------------------------

theorem charIndices_map_snd (off : Nat) (l : List Nat) :
    (charIndices off l).map Prod.snd = l := by
  induction l generalizing off with
  | nil => rfl
  | cons c rest ih => simp [charIndices, ih]

theorem charIndices_length (off : Nat) (l : List Nat) :
    (charIndices off l).length = l.length := by
  induction l generalizing off with
  | nil => rfl
  | cons c rest ih => simp [charIndices, ih]

theorem charIndices_append (off : Nat) (l1 l2 : List Nat) :
    charIndices off (l1 ++ l2) =
      charIndices off l1 ++ charIndices (off + byteLen l1) l2 := by
  induction l1 generalizing off with
  | nil => simp [charIndices, byteLen]
  | cons c rest ih => simp [charIndices, ih, byteLen]; ring_nf

theorem charIndices_drop (off n : Nat) (l : List Nat) :
    (charIndices off l).drop n =
      charIndices (off + byteLen (l.take n)) (l.drop n) := by
  induction l generalizing off n with
  | nil => simp [charIndices]
  | cons c rest ih =>
    cases n with
    | zero => simp [byteLen]
    | succ m =>
      simp [charIndices, List.drop_succ_cons, List.take_succ_cons, byteLen, ih]
      ring_nf

theorem charIndices_eq_nil {off : Nat} {l : List Nat} :
    charIndices off l = [] ↔ l = [] := by
  cases l <;> simp [charIndices]

-- ---------------------- takeB lemmas ----------------------------------------

theorem takeB_stops {l2 : List Nat} (h : stops l2 = true) (l1 : List Nat) :
    takeB (l1 ++ l2) = takeB l1 := by
  induction l1 with
  | nil =>
    cases l2 with
    | nil => rfl
    | cons c rest =>
      simp only [stops, Option.isNone_iff_eq_none] at h
      simp [takeB, h]
  | cons c rest ih =>
    simp only [List.cons_append, takeB]
    cases vs_to_byte c <;> simp [ih]

theorem takeB_map_byte {bs : List Nat} (hb : ∀ b ∈ bs, b < 256)
    {l2 : List Nat} (h : stops l2 = true) :
    takeB (bs.map byte_to_vs ++ l2) = bs := by
  induction bs with
  | nil =>
    cases l2 with
    | nil => rfl
    | cons c rest =>
      simp only [stops, Option.isNone_iff_eq_none] at h
      simp [takeB, h]
  | cons b rest ih =>
    have hb0 : b < 256 := hb b (by simp)
    simp only [List.map_cons, List.cons_append, takeB, vs_to_byte_byte_to_vs hb0]
    exact congrArg (b :: ·) (ih fun x hx => hb x (by simp [hx]))

theorem takeB_drop_stops (l : List Nat) :
    stops (l.drop (takeB l).length) = true := by
  induction l with
  | nil => rfl
  | cons c rest ih =>
    simp only [takeB]
    cases h : vs_to_byte c with
    | none => simp [stops, h]
    | some b => simpa using ih

theorem takeB_length_le (l : List Nat) : (takeB l).length ≤ l.length := by
  induction l with
  | nil => simp [takeB]
  | cons c rest ih =>
    simp only [takeB]
    cases vs_to_byte c
    · simp
    · simp; omega

-- ---------------------- byteTake / byteDrop lemmas --------------------------

theorem byteTake_byteLen (l1 l2 : List Nat) :
    byteTake (byteLen l1) (l1 ++ l2) = l1 := by
  induction l1 with
  | nil =>
    cases l2 with
    | nil => rfl
    | cons c rest =>
      have := utf8Len_pos c
      simp [byteTake, byteLen]; omega
  | cons c rest ih => simp [byteTake, byteLen, ih]

theorem byteDrop_byteLen (l1 l2 : List Nat) :
    byteDrop (byteLen l1) (l1 ++ l2) = l2 := by
  induction l1 with
  | nil =>
    cases l2 with
    | nil => rfl
    | cons c rest =>
      have := utf8Len_pos c
      simp [byteDrop, byteLen]; omega
  | cons c rest ih => simp [byteDrop, byteLen, ih]

-- ---------------------- Fuel irrelevance and loop equations -----------------

theorem countWF_fuel : ∀ f1 f2 (l : List Nat), l.length ≤ f1 → l.length ≤ f2 →
    countWF f1 l = countWF f2 l := by
  intro f1
  induction f1 with
  | zero =>
    intro f2 l h1 _
    have : l = [] := by cases l <;> simp_all
    subst this
    cases f2 <;> rfl
  | succ f ih =>
    intro f2 l h1 h2
    cases l with
    | nil => cases f2 <;> rfl
    | cons c rest =>
      cases f2 with
      | zero => simp at h2
      | succ f2' =>
        simp only [countWF]
        split
        · simp only [List.length_cons] at h1 h2
          have hle : (rest.drop (takeB rest).length).length ≤ rest.length := by
            simp [List.length_drop]
          rw [ih f2' (rest.drop (takeB rest).length) (by omega) (by omega)]
        · simp only [List.length_cons] at h1 h2
          exact ih f2' rest (by omega) (by omega)

theorem countW_nil : countW [] = 0 := rfl

theorem countW_cons_hit {c : Nat} {rest : List Nat}
    (h : c = ZWNBSP ∧ headerOk (takeB rest) = true) :
    countW (c :: rest) = 1 + countW (rest.drop (takeB rest).length) := by
  unfold countW
  simp only [List.length_cons, countWF, h, if_true, and_self, if_pos]
  have hle : (rest.drop (takeB rest).length).length ≤ rest.length := by
    simp [List.length_drop]
  exact congrArg (1 + ·)
    (countWF_fuel rest.length (rest.drop (takeB rest).length).length _ (by omega) le_rfl)

theorem countW_cons_nohit {c : Nat} {rest : List Nat}
    (h : ¬ (c = ZWNBSP ∧ headerOk (takeB rest) = true)) :
    countW (c :: rest) = countW rest := by
  unfold countW
  simp only [List.length_cons, countWF, h, if_false, if_neg]

theorem countW_cons_hit_ne_zero {c : Nat} {rest : List Nat}
    (h : c = ZWNBSP ∧ headerOk (takeB rest) = true) :
    countW (c :: rest) ≠ 0 := by
  rw [countW_cons_hit h]; omega

theorem scanLoopF_fuel (total : Nat) : ∀ f1 f2 (l : List (Nat × Nat)) acc,
    l.length ≤ f1 → l.length ≤ f2 →
    scanLoopF total f1 l acc = scanLoopF total f2 l acc := by
  intro f1
  induction f1 with
  | zero =>
    intro f2 l acc h1 _
    have : l = [] := by cases l <;> simp_all
    subst this
    cases f2 <;> rfl
  | succ f ih =>
    intro f2 l acc h1 h2
    cases l with
    | nil => cases f2 <;> rfl
    | cons hd rest =>
      cases f2 with
      | zero => simp at h2
      | succ f2' =>
        obtain ⟨idx, c⟩ := hd
        simp only [scanLoopF]
        split
        · cases acc with
          | some a => rfl
          | none =>
            simp only [List.length_cons] at h1 h2
            have hle : (rest.drop (takeB (rest.map Prod.snd)).length).length
                ≤ rest.length := by simp [List.length_drop]
            exact ih f2' _ _ (by omega) (by omega)
        · simp only [List.length_cons] at h1 h2
          exact ih f2' rest acc (by omega) (by omega)

theorem scanLoop_nil (total : Nat) (acc : Option Found) :
    scanLoop total [] acc = .ok acc := rfl

theorem scanLoop_cons_hit_some (total idx c : Nat) (rest : List (Nat × Nat))
    (a : Found) (h : c = ZWNBSP ∧ headerOk (takeB (rest.map Prod.snd)) = true) :
    scanLoop total ((idx, c) :: rest) (some a) = .error .MultipleWrappers := by
  unfold scanLoop
  simp only [List.length_cons, scanLoopF, h, and_self, if_pos]

theorem scanLoop_cons_hit_none (total idx c : Nat) (rest : List (Nat × Nat))
    (h : c = ZWNBSP ∧ headerOk (takeB (rest.map Prod.snd)) = true) :
    scanLoop total ((idx, c) :: rest) none =
      scanLoop total (rest.drop (takeB (rest.map Prod.snd)).length)
        (some (idx,
          (match rest.drop (takeB (rest.map Prod.snd)).length with
           | [] => total
           | (i2, _) :: _ => i2),
          ((takeB (rest.map Prod.snd)).drop HEADER_SIZE).take
            (declaredLen (takeB (rest.map Prod.snd))))) := by
  unfold scanLoop
  simp only [List.length_cons, scanLoopF, h, and_self, if_pos]
  have hle : (rest.drop (takeB (rest.map Prod.snd)).length).length
      ≤ rest.length := by simp [List.length_drop]
  exact scanLoopF_fuel total rest.length _ _ _ (by omega) le_rfl

theorem scanLoop_cons_nohit (total idx c : Nat) (rest : List (Nat × Nat))
    (acc : Option Found)
    (h : ¬ (c = ZWNBSP ∧ headerOk (takeB (rest.map Prod.snd)) = true)) :
    scanLoop total ((idx, c) :: rest) acc = scanLoop total rest acc := by
  unfold scanLoop
  simp only [List.length_cons, scanLoopF, h, if_false, if_neg]

theorem byteLen_cons (c : Nat) (l : List Nat) :
    byteLen (c :: l) = utf8Len c + byteLen l := rfl

theorem utf8Len_ZWNBSP : utf8Len ZWNBSP = 3 := by decide

theorem stops_ZWNBSP (l : List Nat) : stops (ZWNBSP :: l) = true := by
  simp [stops, vs_to_byte_ZWNBSP]

-- ---------------------- Scan-loop characterization --------------------------

/-- Once a wrapper has been recognized, the rest of the scan either confirms
uniqueness (returning the recognized wrapper unchanged) or fails with
`MultipleWrappers`, according to whether the remaining text holds any further
recognized wrapper. -/
theorem scanLoop_some (l : List Nat) : ∀ (off total : Nat) (a : Found),
    scanLoop total (charIndices off l) (some a) =
      if countW l = 0 then .ok (some a) else .error .MultipleWrappers := by
  induction l with
  | nil => intro off total a; simp [charIndices, scanLoop_nil, countW_nil]
  | cons c rest ih =>
    intro off total a
    simp only [charIndices]
    by_cases h : c = ZWNBSP ∧ headerOk (takeB rest) = true
    · have h' : c = ZWNBSP
          ∧ headerOk (takeB ((charIndices (off + utf8Len c) rest).map Prod.snd)) = true := by
        rwa [charIndices_map_snd]
      rw [scanLoop_cons_hit_some _ _ _ _ _ h', if_neg (countW_cons_hit_ne_zero h)]
    · have h' : ¬ (c = ZWNBSP
          ∧ headerOk (takeB ((charIndices (off + utf8Len c) rest).map Prod.snd)) = true) := by
        rwa [charIndices_map_snd]
      rw [scanLoop_cons_nohit _ _ _ _ _ h', ih, countW_cons_nohit h]

/-- The scan from an empty accumulator: no wrapper, exactly one, or failure,
according to the number of independently recognized wrappers. -/
theorem scanLoop_none_cases (l : List Nat) : ∀ (off total : Nat),
    (countW l = 0 ∧ scanLoop total (charIndices off l) none = .ok none) ∨
    (countW l = 1 ∧ ∃ r, scanLoop total (charIndices off l) none = .ok (some r)) ∨
    (2 ≤ countW l ∧ scanLoop total (charIndices off l) none = .error .MultipleWrappers) := by
  induction l with
  | nil =>
    intro off total
    exact Or.inl ⟨countW_nil, scanLoop_nil total none⟩
  | cons c rest ih =>
    intro off total
    simp only [charIndices]
    by_cases h : c = ZWNBSP ∧ headerOk (takeB rest) = true
    · have h' : c = ZWNBSP
          ∧ headerOk (takeB ((charIndices (off + utf8Len c) rest).map Prod.snd)) = true := by
        rwa [charIndices_map_snd]
      rw [scanLoop_cons_hit_none _ _ _ _ h']
      rw [countW_cons_hit h]
      simp only [charIndices_map_snd]
      rw [charIndices_drop, scanLoop_some]
      by_cases h0 : countW (rest.drop (takeB rest).length) = 0
      · exact Or.inr (Or.inl ⟨by omega, ⟨_, by rw [if_pos h0]⟩⟩)
      · exact Or.inr (Or.inr ⟨by omega, by rw [if_neg h0]⟩)
    · have h' : ¬ (c = ZWNBSP
          ∧ headerOk (takeB ((charIndices (off + utf8Len c) rest).map Prod.snd)) = true) := by
        rwa [charIndices_map_snd]
      rw [scanLoop_cons_nohit _ _ _ _ _ h', countW_cons_nohit h]
      exact ih (off + utf8Len c) total

theorem scanLoop_none_of_zero {l : List Nat} (h : countW l = 0)
    (off total : Nat) : scanLoop total (charIndices off l) none = .ok none := by
  rcases scanLoop_none_cases l off total with ⟨_, hs⟩ | ⟨h1, _⟩ | ⟨h2, _⟩
  · exact hs
  · omega
  · omega

theorem countW_zero_of_ok_none {l : List Nat} {off total : Nat}
    (h : scanLoop total (charIndices off l) none = .ok none) : countW l = 0 := by
  rcases scanLoop_none_cases l off total with ⟨h0, _⟩ | ⟨_, r, hs⟩ | ⟨_, hs⟩
  · exact h0
  · rw [h] at hs; exact absurd hs (by simp)
  · rw [h] at hs; exact absurd hs (by simp)

/-- Extraction on a wrapper-free text succeeds with no payload. -/
theorem extract_none {text : List Nat} (h : countW text = 0)
    (nfc : List Nat → List Nat) :
    extract_manifest nfc text = .ok ⟨none, nfc text, none, none⟩ := by
  unfold extract_manifest
  rw [scanLoop_none_of_zero h]

/-- Appending a text whose head stops a decodable run cannot create a wrapper
if neither part holds one. -/
theorem countW_append_zero {l1 l2 : List Nat} (h1 : countW l1 = 0)
    (h2 : countW l2 = 0) (hs : stops l2 = true) : countW (l1 ++ l2) = 0 := by
  induction l1 with
  | nil => simpa
  | cons c rest ih =>
    have hnot : ¬ (c = ZWNBSP ∧ headerOk (takeB rest) = true) := by
      intro hc; exact countW_cons_hit_ne_zero hc h1
    have hnot' : ¬ (c = ZWNBSP ∧ headerOk (takeB (rest ++ l2)) = true) := by
      rwa [takeB_stops hs]
    rw [List.cons_append, countW_cons_nohit hnot']
    exact ih (by rwa [countW_cons_nohit hnot] at h1)

/-- Forward run of the scan on a decomposed text: a wrapper-free part, then a
marker, then the encoded bytes `bs` with a valid header, then a wrapper-free
part that begins non-decodably.  The scan recognizes exactly the one wrapper
and reports its span in original byte coordinates. -/
theorem scanLoop_finds (bs post : List Nat) (hb : ∀ b ∈ bs, b < 256)
    (hpost : countW post = 0) (hstops : stops post = true)
    (hh : headerOk bs = true) :
    ∀ (pre : List Nat) (off total : Nat), countW pre = 0 →
    total = off + byteLen (pre ++ (ZWNBSP :: (bs.map byte_to_vs ++ post))) →
    scanLoop total
        (charIndices off (pre ++ (ZWNBSP :: (bs.map byte_to_vs ++ post)))) none =
      .ok (some (off + byteLen pre,
        off + byteLen pre + utf8Len ZWNBSP + byteLen (bs.map byte_to_vs),
        (bs.drop HEADER_SIZE).take (declaredLen bs))) := by
  intro pre
  induction pre with
  | nil =>
    intro off total hpre htot
    simp only [List.nil_append] at htot ⊢
    simp only [charIndices]
    have hrun : takeB (bs.map byte_to_vs ++ post) = bs := takeB_map_byte hb hstops
    have h' : ZWNBSP = ZWNBSP ∧ headerOk
        (takeB ((charIndices (off + utf8Len ZWNBSP) (bs.map byte_to_vs ++ post)).map
          Prod.snd)) = true := by
      rw [charIndices_map_snd, hrun]; exact ⟨rfl, hh⟩
    rw [scanLoop_cons_hit_none _ _ _ _ h']
    simp only [charIndices_map_snd, hrun]
    rw [charIndices_drop]
    have hlen : (bs.map byte_to_vs).length = bs.length := List.length_map _ _
    have htake : (bs.map byte_to_vs ++ post).take bs.length = bs.map byte_to_vs := by
      rw [List.take_left' hlen]
    have hdrop : (bs.map byte_to_vs ++ post).drop bs.length = post := by
      rw [List.drop_left' hlen]
    rw [htake, hdrop, scanLoop_some]
    rw [if_pos hpost]
    have hend : (match charIndices (off + utf8Len ZWNBSP + byteLen (bs.map byte_to_vs))
          post with
        | [] => total
        | (i2, _) :: _ => i2) =
        off + utf8Len ZWNBSP + byteLen (bs.map byte_to_vs) := by
      cases post with
      | nil =>
        simp only [charIndices]
        rw [htot, byteLen_cons, List.append_nil, ← Nat.add_assoc]
      | cons p0 prest => simp [charIndices]
    rw [hend]
    simp [byteLen]
  | cons c pre2 ih =>
    intro off total hpre htot
    simp only [List.cons_append, charIndices, List.append_eq]
    have hstopm : stops (ZWNBSP :: (bs.map byte_to_vs ++ post)) = true :=
      stops_ZWNBSP _
    have htb : takeB (pre2 ++ (ZWNBSP :: (bs.map byte_to_vs ++ post))) = takeB pre2 :=
      takeB_stops hstopm pre2
    have hnot : ¬ (c = ZWNBSP ∧ headerOk (takeB pre2) = true) := by
      intro hc
      exact countW_cons_hit_ne_zero hc hpre
    have hnot' : ¬ (c = ZWNBSP ∧ headerOk
        (takeB ((charIndices (off + utf8Len c)
          (pre2 ++ (ZWNBSP :: (bs.map byte_to_vs ++ post)))).map Prod.snd)) = true) := by
      rw [charIndices_map_snd, htb]; exact hnot
    rw [scanLoop_cons_nohit _ _ _ _ _ hnot']
    have hpre2 : countW pre2 = 0 := by
      rw [countW_cons_nohit hnot] at hpre; exact hpre
    have := ih (off + utf8Len c) total hpre2
      (by rw [htot]; simp only [List.cons_append, byteLen_cons]; omega)
    rw [this]
    have h1 : off + utf8Len c + byteLen pre2 = off + byteLen (c :: pre2) := by
      rw [byteLen_cons]; omega
    rw [h1]

/-- `extract_manifest` on a decomposed text: payload, cleaned text, offset and
span length in original byte coordinates. -/
theorem extract_found (nfc : List Nat → List Nat) (pre bs post : List Nat)
    (hpre : countW pre = 0) (hb : ∀ b ∈ bs, b < 256) (hpost : countW post = 0)
    (hstops : stops post = true) (hh : headerOk bs = true) :
    extract_manifest nfc (pre ++ (ZWNBSP :: (bs.map byte_to_vs ++ post))) =
      .ok ⟨some ((bs.drop HEADER_SIZE).take (declaredLen bs)),
           nfc (pre ++ post),
           some (byteLen pre),
           some (utf8Len ZWNBSP + byteLen (bs.map byte_to_vs))⟩ := by
  unfold extract_manifest
  rw [scanLoop_finds bs post hb hpost hstops hh pre 0 _ hpre (by omega)]
  dsimp only
  have htake : byteTake (0 + byteLen pre)
      (pre ++ (ZWNBSP :: (bs.map byte_to_vs ++ post))) = pre := by
    rw [Nat.zero_add, byteTake_byteLen]
  have hsplit : pre ++ (ZWNBSP :: (bs.map byte_to_vs ++ post)) =
      (pre ++ (ZWNBSP :: bs.map byte_to_vs)) ++ post := by
    simp
  have hdrop : byteDrop (0 + byteLen pre + utf8Len ZWNBSP + byteLen (bs.map byte_to_vs))
      (pre ++ (ZWNBSP :: (bs.map byte_to_vs ++ post))) = post := by
    rw [hsplit]
    have hlen : byteLen (pre ++ (ZWNBSP :: bs.map byte_to_vs)) =
        0 + byteLen pre + utf8Len ZWNBSP + byteLen (bs.map byte_to_vs) := by
      rw [byteLen_append, byteLen_cons]; omega
    rw [← hlen, byteDrop_byteLen]
  rw [htake, hdrop]
  congr 1
  simp
  omega

/-- Inverse direction: if the scan returns a recognized wrapper, the text
decomposes into a wrapper-free part, the marker, the consumed decodable run,
and a wrapper-free remainder that begins non-decodably; the reported span is
the byte extent of marker plus run. -/
theorem scanLoop_ok_some_shape (l : List Nat) : ∀ (off total s e : Nat) (p : List Nat),
    total = off + byteLen l →
    scanLoop total (charIndices off l) none = .ok (some (s, e, p)) →
    ∃ pre run post, l = pre ++ (ZWNBSP :: (run ++ post)) ∧ countW pre = 0 ∧
      countW post = 0 ∧ stops post = true ∧ s = off + byteLen pre ∧
      e = off + byteLen pre + utf8Len ZWNBSP + byteLen run := by
  induction l with
  | nil =>
    intro off total s e p _ hscan
    simp [charIndices, scanLoop_nil] at hscan
  | cons c rest ih =>
    intro off total s e p htot hscan
    simp only [charIndices] at hscan
    by_cases h : c = ZWNBSP ∧ headerOk (takeB rest) = true
    · obtain ⟨hc, hh⟩ := h
      subst hc
      have h' : ZWNBSP = ZWNBSP ∧ headerOk
          (takeB ((charIndices (off + utf8Len ZWNBSP) rest).map Prod.snd)) = true := by
        rw [charIndices_map_snd]; exact ⟨rfl, hh⟩
      rw [scanLoop_cons_hit_none _ _ _ _ h'] at hscan
      simp only [charIndices_map_snd] at hscan
      rw [charIndices_drop, scanLoop_some] at hscan
      by_cases h0 : countW (rest.drop (takeB rest).length) = 0
      · rw [if_pos h0] at hscan
        refine ⟨[], rest.take (takeB rest).length, rest.drop (takeB rest).length,
          by simp [List.take_append_drop], countW_nil, h0, takeB_drop_stops rest, ?_, ?_⟩
        · simp only [Except.ok.injEq, Option.some.injEq, Prod.mk.injEq] at hscan
          rw [← hscan.1]
          simp [byteLen]
        · rcases hdk : rest.drop (takeB rest).length with _ | ⟨c2, rests⟩
          · rw [hdk] at hscan
            simp only [charIndices, Except.ok.injEq, Option.some.injEq,
              Prod.mk.injEq] at hscan
            have hrest : rest.take (takeB rest).length = rest := by
              have := List.take_append_drop (takeB rest).length rest
              rw [hdk, List.append_nil] at this
              exact this
            rw [← hscan.2.1, htot, byteLen_cons, hrest]
            simp [byteLen]
            omega
          · rw [hdk] at hscan
            simp only [charIndices, Except.ok.injEq, Option.some.injEq,
              Prod.mk.injEq] at hscan
            rw [← hscan.2.1]
            simp [byteLen]
      · rw [if_neg h0] at hscan
        exact absurd hscan (by simp)
    · have h' : ¬ (c = ZWNBSP ∧ headerOk
          (takeB ((charIndices (off + utf8Len c) rest).map Prod.snd)) = true) := by
        rwa [charIndices_map_snd]
      rw [scanLoop_cons_nohit _ _ _ _ _ h'] at hscan
      obtain ⟨pre2, run, post, hsplit, hpre2, hpost, hstops, hs, he⟩ :=
        ih (off + utf8Len c) total s e p (by rw [htot, byteLen_cons]; omega) hscan
      have hnot2 : ¬ (c = ZWNBSP ∧ headerOk (takeB pre2) = true) := by
        rw [hsplit, takeB_stops (stops_ZWNBSP _) pre2] at h
        exact h
      refine ⟨c :: pre2, run, post, by rw [hsplit]; rfl, ?_, hpost, hstops, ?_, ?_⟩
      · rw [countW_cons_nohit hnot2]; exact hpre2
      · rw [byteLen_cons]; omega
      · rw [byteLen_cons]; omega

/-- `extract_manifest`, fully classified by the number of independently
recognized wrappers. -/
theorem extract_cases (nfc : List Nat → List Nat) (text : List Nat) :
    (countW text = 0 ∧ extract_manifest nfc text = .ok ⟨none, nfc text, none, none⟩) ∨
    (countW text = 1 ∧ ∃ r, extract_manifest nfc text = .ok r) ∨
    (2 ≤ countW text ∧ extract_manifest nfc text = .error .MultipleWrappers) := by
  rcases scanLoop_none_cases text 0 (byteLen text) with ⟨h0, hs⟩ | ⟨h1, r, hs⟩ | ⟨h2, hs⟩
  · exact Or.inl ⟨h0, by unfold extract_manifest; rw [hs]⟩
  · obtain ⟨s, e, p⟩ := r
    exact Or.inr (Or.inl ⟨h1,
      ⟨⟨some p, nfc (byteTake s text ++ byteDrop e text), some s, some (e - s)⟩,
       by unfold extract_manifest; rw [hs]⟩⟩)
  · exact Or.inr (Or.inr ⟨h2, by unfold extract_manifest; rw [hs]⟩)

-- ---------------------- Claim theorems --------------------------------------

/-- C2: the byte-to-codepoint mapping is the closed-form bijection: bytes 0-15
map to 0xFE00+b, bytes 16-255 map to 0xE0100+b-16, decoding inverts encoding
on every byte, and every scalar value outside the two variation-selector
ranges decodes to none. -/
theorem claim_C2 :
    (∀ b : Nat, b ≤ 15 → byte_to_vs b = 0xFE00 + b) ∧
    (∀ b : Nat, 16 ≤ b → b ≤ 255 → byte_to_vs b = 0xE0100 + b - 16) ∧
    (∀ b : Nat, b ≤ 255 → vs_to_byte (byte_to_vs b) = some b) ∧
    (∀ c : Nat, ¬ (0xFE00 ≤ c ∧ c ≤ 0xFE0F) → ¬ (0xE0100 ≤ c ∧ c ≤ 0xE01EF) →
      vs_to_byte c = none) := by
  refine ⟨?_, ?_, ?_, ?_⟩
  · intro b hb
    unfold byte_to_vs VS_START
    rw [if_pos hb]
  · intro b hb1 hb2
    unfold byte_to_vs VS_SUP_START
    rw [if_neg (by omega)]
    omega
  · intro b hb
    exact vs_to_byte_byte_to_vs (by omega)
  · intro c h1 h2
    unfold vs_to_byte VS_START VS_END VS_SUP_START VS_SUP_END
    rw [if_neg (by omega), if_neg (by omega)]

theorem claim_C2_witness :
    byte_to_vs 3 = 0xFE03 ∧ byte_to_vs 200 = 0xE01B8 ∧
    vs_to_byte (byte_to_vs 200) = some 200 ∧ vs_to_byte 0x41 = none :=
  ⟨claim_C2.1 3 (by decide),
   by rw [claim_C2.2.1 200 (by decide) (by decide)],
   claim_C2.2.2.1 200 (by decide),
   claim_C2.2.2.2 0x41 (by decide) (by decide)⟩

/-- C3: extraction errs exactly when two or more wrappers are independently
recognized, the only error is MultipleWrappers, and a text with zero or one
recognized wrapper yields a success (with payload absent in the zero case). -/
theorem claim_C3 (nfc : List Nat → List Nat) (text : List Nat) :
    (extract_manifest nfc text = .error .MultipleWrappers ↔ 2 ≤ countW text) ∧
    (∀ e, extract_manifest nfc text = .error e → e = .MultipleWrappers) ∧
    (countW text ≤ 1 → ∃ r, extract_manifest nfc text = .ok r) ∧
    (countW text = 0 →
      extract_manifest nfc text = .ok ⟨none, nfc text, none, none⟩) := by
  rcases extract_cases nfc text with ⟨h0, hs⟩ | ⟨h1, r, hs⟩ | ⟨h2, hs⟩
  · refine ⟨⟨fun herr => ?_, fun hc => by omega⟩, fun e herr => ?_, fun _ => ⟨_, hs⟩,
      fun _ => hs⟩
    · rw [hs] at herr; exact absurd herr (by simp)
    · rw [hs] at herr; exact absurd herr (by simp)
  · refine ⟨⟨fun herr => ?_, fun hc => by omega⟩, fun e herr => ?_, fun _ => ⟨_, hs⟩,
      fun hc => by omega⟩
    · rw [hs] at herr; exact absurd herr (by simp)
    · rw [hs] at herr; exact absurd herr (by simp)
  · refine ⟨⟨fun _ => h2, fun _ => hs⟩, fun e herr => ?_, fun hc => by omega,
      fun hc => by omega⟩
    · rw [hs] at herr
      simp only [Except.error.injEq] at herr
      exact herr.symm

theorem claim_C3_witness :
    extract_manifest id [0x41, 0x42] = .ok ⟨none, [0x41, 0x42], none, none⟩ :=
  (claim_C3 id [0x41, 0x42]).2.2.2 (by decide)

/-- C5: at a marker whose following decodable run has fewer than 13 bytes or
whose decoded header fails the magic, version or length check, the scan does
not recognize a wrapper and resumes at the codepoint right after the marker
(so the rest of the text, including further markers, is scanned unchanged). -/
theorem claim_C5 (total idx : Nat) (rest : List (Nat × Nat)) (acc : Option Found)
    (h : (takeB (rest.map Prod.snd)).length < HEADER_SIZE ∨
      (takeB (rest.map Prod.snd)).take 8 ≠ MAGIC ∨
      (takeB (rest.map Prod.snd)).getD 8 0 ≠ VERSION ∨
      (takeB (rest.map Prod.snd)).length <
        HEADER_SIZE + declaredLen (takeB (rest.map Prod.snd))) :
    scanLoop total ((idx, ZWNBSP) :: rest) acc = scanLoop total rest acc ∧
    countW (ZWNBSP :: rest.map Prod.snd) = countW (rest.map Prod.snd) := by
  have hno : ¬ headerOk (takeB (rest.map Prod.snd)) = true := by
    simp only [headerOk, Bool.and_eq_true, decide_eq_true_eq]
    intro hc
    obtain ⟨⟨⟨hA, hB⟩, hC⟩, hD⟩ := hc
    rcases h with h | h | h | h
    · omega
    · exact h hB
    · exact h hC
    · omega
  constructor
  · exact scanLoop_cons_nohit total idx ZWNBSP rest acc (fun hc => hno hc.2)
  · exact countW_cons_nohit (fun hc => hno hc.2)

theorem claim_C5_witness :
    scanLoop 0 [(0, ZWNBSP)] none = scanLoop 0 [] none ∧
    countW [ZWNBSP] = countW [] :=
  claim_C5 0 0 [] none (Or.inl (by decide))

-- ---------------------- Header byte-layout lemmas ---------------------------

theorem declaredLen_header {n : Nat} (B : List Nat) (h : n < 2 ^ 32) :
    declaredLen (MAGIC ++ [VERSION] ++ be32 n ++ B) = n := by
  have heq : declaredLen (MAGIC ++ [VERSION] ++ be32 n ++ B) =
      n / 2 ^ 24 % 256 * 2 ^ 24 + n / 2 ^ 16 % 256 * 2 ^ 16
        + n / 2 ^ 8 % 256 * 2 ^ 8 + n % 256 := rfl
  rw [heq]
  omega

theorem header_length (n : Nat) (B : List Nat) :
    (MAGIC ++ [VERSION] ++ be32 n ++ B).length = 13 + B.length := by
  simp [MAGIC, VERSION, be32]
  omega

theorem headerOk_header {n : Nat} (B : List Nat) (h : n < 2 ^ 32)
    (hle : n ≤ B.length) :
    headerOk (MAGIC ++ [VERSION] ++ be32 n ++ B) = true := by
  simp only [headerOk, Bool.and_eq_true, decide_eq_true_eq]
  refine ⟨⟨⟨?_, rfl⟩, rfl⟩, ?_⟩
  · rw [header_length]
    unfold HEADER_SIZE
    omega
  · rw [declaredLen_header B h, header_length]
    unfold HEADER_SIZE
    omega

theorem header_bytes_lt (n : Nat) (B : List Nat) (hB : ∀ b ∈ B, b < 256) :
    ∀ b ∈ MAGIC ++ [VERSION] ++ be32 n ++ B, b < 256 := by
  intro b hb
  rcases List.mem_append.mp hb with hb1 | hb2
  · rcases List.mem_append.mp hb1 with hb3 | hb4
    · rcases List.mem_append.mp hb3 with hb5 | hb6
      · simp only [MAGIC, List.mem_cons, List.not_mem_nil, or_false] at hb5
        rcases hb5 with h | h | h | h | h | h | h | h <;> omega
      · simp only [VERSION, List.mem_singleton] at hb6
        omega
    · simp only [be32, List.mem_cons, List.not_mem_nil, or_false] at hb4
      rcases hb4 with h | h | h | h <;> subst h <;> omega
  · exact hB b hb2

theorem encode_wrapper_eq (B : List Nat) :
    encode_wrapper B =
      ZWNBSP :: ((MAGIC ++ [VERSION] ++ be32 (B.length % 2 ^ 32) ++ B).map byte_to_vs
        ++ ([] : List Nat)) := by
  simp [encode_wrapper, List.map_append]

/-- C1 (amended): for every payload of fewer than 2^32 bytes and every host
text carrying no recognized wrapper (whose normalization also carries none),
extraction from the embedding succeeds and recovers exactly the payload. -/
theorem claim_C1 (nfc : List Nat → List Nat)
    (hnfc : ∀ s, countW s = 0 → countW (nfc s) = 0)
    (T B : List Nat) (hT : countW T = 0) (hB : ∀ b ∈ B, b < 256)
    (hlen : B.length < 2 ^ 32) :
    ∃ r, extract_manifest nfc (embed_manifest nfc T B) = .ok r ∧
      r.manifest = some B := by
  have hmod : B.length % 2 ^ 32 = B.length := Nat.mod_eq_of_lt hlen
  have hshape : embed_manifest nfc T B =
      nfc T ++ (ZWNBSP :: ((MAGIC ++ [VERSION] ++ be32 B.length ++ B).map byte_to_vs
        ++ ([] : List Nat))) := by
    unfold embed_manifest
    rw [encode_wrapper_eq, hmod]
  rw [hshape]
  have hfound := extract_found nfc (nfc T) (MAGIC ++ [VERSION] ++ be32 B.length ++ B) []
    (hnfc T hT) (header_bytes_lt B.length B hB) countW_nil rfl
    (headerOk_header B hlen le_rfl)
  refine ⟨_, hfound, ?_⟩
  have hdrop : (MAGIC ++ [VERSION] ++ be32 B.length ++ B).drop HEADER_SIZE = B := rfl
  show some (((MAGIC ++ [VERSION] ++ be32 B.length ++ B).drop HEADER_SIZE).take
    (declaredLen (MAGIC ++ [VERSION] ++ be32 B.length ++ B))) = some B
  rw [hdrop, declaredLen_header B hlen, List.take_length]

theorem claim_C1_witness :
    ∃ r, extract_manifest id (embed_manifest id [0x41] [5, 200]) = .ok r ∧
      r.manifest = some [5, 200] :=
  claim_C1 id (fun _ h => h) [0x41] [5, 200] (by decide) (by decide) (by decide)

/-- C1 counterexample: with a payload of exactly 2^32 zero bytes the encoded
length field wraps to zero (`len as u32`), so extraction recovers the empty
payload, not the original payload. -/
theorem claim_C1_cex :
    extract_manifest id (embed_manifest id [] (List.replicate (2 ^ 32) 0)) =
      .ok ⟨some [], [], some 0, some (49 + 3 * 2 ^ 32)⟩ ∧
    some ([] : List Nat) ≠ some (List.replicate (2 ^ 32) (0 : Nat)) := by
  constructor
  · have hshape : embed_manifest id [] (List.replicate (2 ^ 32) (0 : Nat)) =
        ([] : List Nat) ++ (ZWNBSP ::
          ((MAGIC ++ [VERSION] ++ be32 0 ++ List.replicate (2 ^ 32) 0).map byte_to_vs
            ++ ([] : List Nat))) := by
      unfold embed_manifest
      rw [encode_wrapper_eq, List.length_replicate, Nat.mod_self]
      rfl
    rw [hshape]
    have hb : ∀ b ∈ List.replicate (2 ^ 32) (0 : Nat), b < 256 := by
      intro b hb
      rw [List.eq_of_mem_replicate hb]
      omega
    have hok : headerOk (MAGIC ++ [VERSION] ++ be32 0
        ++ List.replicate (2 ^ 32) (0 : Nat)) = true :=
      headerOk_header _ (by omega) (Nat.zero_le _)
    have hfound := extract_found id []
      (MAGIC ++ [VERSION] ++ be32 0 ++ List.replicate (2 ^ 32) 0) []
      countW_nil (header_bytes_lt 0 _ hb) countW_nil rfl hok
    rw [hfound]
    have hpay : ((MAGIC ++ [VERSION] ++ be32 0
        ++ List.replicate (2 ^ 32) (0 : Nat)).drop HEADER_SIZE).take
        (declaredLen (MAGIC ++ [VERSION] ++ be32 0 ++ List.replicate (2 ^ 32) 0)) =
        ([] : List Nat) := by
      rw [declaredLen_header _ (by omega), List.take_zero]
    have hbl : byteLen ((MAGIC ++ [VERSION] ++ be32 0
        ++ List.replicate (2 ^ 32) (0 : Nat)).map byte_to_vs) = 46 + 3 * 2 ^ 32 := by
      simp only [List.map_append, byteLen_append, List.map_replicate]
      have h1 : byteLen (MAGIC.map byte_to_vs) = 31 := by decide
      have h2 : byteLen ([VERSION].map byte_to_vs) = 3 := by decide
      have h3 : byteLen ((be32 0).map byte_to_vs) = 12 := by decide
      have h4 : byteLen (List.replicate (2 ^ 32) (byte_to_vs 0)) = 3 * 2 ^ 32 := by
        rw [byteLen_replicate]
        have : utf8Len (byte_to_vs 0) = 3 := by decide
        rw [this]
        omega
      rw [h1, h2, h3, h4]
    rw [hpay, hbl, utf8Len_ZWNBSP]
    have harith : 3 + (46 + 3 * 2 ^ 32) = 49 + 3 * 2 ^ 32 := by norm_num
    rw [harith]
    rfl
  · intro hcon
    have hlen := congrArg (fun o => (Option.getD o []).length) hcon
    simp only [Option.getD_some, List.length_nil, List.length_replicate] at hlen
    omega

/-- C4 (amended): on a text holding exactly one recognized wrapper — a
wrapper-free part, the marker, an all-decodable run with a valid header, and
a wrapper-free remainder beginning non-decodably — extraction returns the
declared-length payload after the 13-byte header, the original text with the
whole marker-plus-run span (including decodable codepoints beyond the
declared length) deleted and re-normalized, and that span's byte offset and
byte length in the original text. -/
theorem claim_C4 (nfc : List Nat → List Nat) (pre bs post : List Nat)
    (hpre : countW pre = 0) (hb : ∀ b ∈ bs, b < 256) (hpost : countW post = 0)
    (hstops : stops post = true) (hh : headerOk bs = true) :
    extract_manifest nfc (pre ++ (ZWNBSP :: (bs.map byte_to_vs ++ post))) =
      .ok ⟨some ((bs.drop HEADER_SIZE).take (declaredLen bs)),
           nfc (pre ++ post),
           some (byteLen pre),
           some (utf8Len ZWNBSP + byteLen (bs.map byte_to_vs))⟩ ∧
    countW (pre ++ (ZWNBSP :: (bs.map byte_to_vs ++ post))) = 1 := by
  have hfound := extract_found nfc pre bs post hpre hb hpost hstops hh
  refine ⟨hfound, ?_⟩
  rcases extract_cases nfc (pre ++ (ZWNBSP :: (bs.map byte_to_vs ++ post)))
    with ⟨h0, hs⟩ | ⟨h1, _⟩ | ⟨h2, hs⟩
  · rw [hfound] at hs
    exact absurd hs (by simp)
  · exact h1
  · rw [hfound] at hs
    exact absurd hs (by simp)

theorem claim_C4_witness :
    extract_manifest id ([0x41] ++ (ZWNBSP ::
        ((MAGIC ++ [VERSION] ++ [0, 0, 0, 1] ++ [0xAB]).map byte_to_vs ++ [0x42]))) =
      .ok ⟨some (((MAGIC ++ [VERSION] ++ [0, 0, 0, 1] ++ [0xAB]).drop HEADER_SIZE).take
             (declaredLen (MAGIC ++ [VERSION] ++ [0, 0, 0, 1] ++ [0xAB]))),
           id ([0x41] ++ [0x42]),
           some (byteLen [0x41]),
           some (utf8Len ZWNBSP
             + byteLen ((MAGIC ++ [VERSION] ++ [0, 0, 0, 1] ++ [0xAB]).map byte_to_vs))⟩ ∧
    countW ([0x41] ++ (ZWNBSP ::
        ((MAGIC ++ [VERSION] ++ [0, 0, 0, 1] ++ [0xAB]).map byte_to_vs ++ [0x42]))) = 1 :=
  claim_C4 id [0x41] (MAGIC ++ [VERSION] ++ [0, 0, 0, 1] ++ [0xAB]) [0x42]
    (by decide) (by decide) (by decide) (by decide) (by decide)

/-- C4 counterexample: after a valid zero-length header, one extra decodable
codepoint follows; the code's span covers the whole decodable run (byte length
52) and deletes the extra codepoint, while the claim predicts a span ending at
the declared payload (byte length 49) with the extra codepoint kept. -/
theorem claim_C4_cex :
    extract_manifest id (ZWNBSP ::
        ((MAGIC ++ [VERSION] ++ [0, 0, 0, 0]).map byte_to_vs ++ [0xFE00])) =
      .ok ⟨some [], [], some 0, some 52⟩ ∧
    extract_manifest id (ZWNBSP ::
        ((MAGIC ++ [VERSION] ++ [0, 0, 0, 0]).map byte_to_vs ++ [0xFE00])) ≠
      .ok ⟨some [], [0xFE00], some 0, some 49⟩ := by
  decide

/-- C8: whenever extraction succeeds, extracting again from the returned clean
text finds no wrapper. -/
theorem claim_C8 (nfc : List Nat → List Nat)
    (hnfc : ∀ s, countW s = 0 → countW (nfc s) = 0)
    (text : List Nat) (r : ExtractionResult)
    (h : extract_manifest nfc text = .ok r) :
    extract_manifest nfc r.clean_text = .ok ⟨none, nfc r.clean_text, none, none⟩ := by
  unfold extract_manifest at h
  rcases hscan : scanLoop (byteLen text) (charIndices 0 text) none with e | o
  · rw [hscan] at h
    exact absurd h (by simp)
  · rcases o with _ | ⟨s, e2, p⟩
    · rw [hscan] at h
      simp only [Except.ok.injEq] at h
      have hclean : r.clean_text = nfc text := by rw [← h]
      have h0 : countW text = 0 := countW_zero_of_ok_none hscan
      rw [hclean]
      exact extract_none (hnfc text h0) nfc
    · rw [hscan] at h
      simp only [Except.ok.injEq] at h
      obtain ⟨pre, run, post, hsplit, hpre, hpost, hstops, hs, he⟩ :=
        scanLoop_ok_some_shape text 0 (byteLen text) s e2 p (by omega) hscan
      have hclean : r.clean_text = nfc (byteTake s text ++ byteDrop e2 text) := by
        rw [← h]
      have htake : byteTake s text = pre := by
        rw [hsplit, hs]
        simp only [Nat.zero_add]
        exact byteTake_byteLen pre _
      have hdrop : byteDrop e2 text = post := by
        have hshape2 : text = (pre ++ (ZWNBSP :: run)) ++ post := by
          rw [hsplit]
          simp
        have hlen2 : byteLen (pre ++ (ZWNBSP :: run)) = e2 := by
          rw [byteLen_append, byteLen_cons, he]
          omega
        rw [hshape2, ← hlen2, byteDrop_byteLen]
      have h0 : countW (byteTake s text ++ byteDrop e2 text) = 0 := by
        rw [htake, hdrop]
        exact countW_append_zero hpre hpost hstops
      rw [hclean]
      exact extract_none (hnfc _ h0) nfc

theorem claim_C8_witness :
    extract_manifest id ([] : List Nat) = .ok ⟨none, [], none, none⟩ :=
  claim_C8 id (fun _ h => h) [] ⟨none, [], none, none⟩ (by decide)

-- ---------------------- Validator claims ------------------------------------

/-- The first failing check of the structural validation, in the order the
claim describes it (`none` when every check passes).  Written from the claim's
words, to be compared with `validate_jumbf_structure`. -/
def jumbfClaimIssue (jumbf_bytes : List Nat) (strict : Bool) :
    Option ValidationCode :=
  if jumbf_bytes.length = 0 then some .EmptyManifest
  else if jumbf_bytes.length < 8 then some .InvalidJumbfHeader
  else if readBE32 jumbf_bytes 0 = 1 ∧ jumbf_bytes.length < 16 then
    some .TruncatedJumbf
  else if 2 ≤ readBE32 jumbf_bytes 0 ∧ readBE32 jumbf_bytes 0 < 8 then
    some .InvalidJumbfBoxSize
  else if jumbf_bytes.length < effectiveSize jumbf_bytes then
    some .TruncatedJumbf
  else if (jumbf_bytes.drop 4).take 4 ≠ JUMBF_SUPERBOX_TYPE then
    some .InvalidJumbfHeader
  else if strict then
    if jumbf_bytes.length < headerSize jumbf_bytes + 8 then
      some .MissingDescriptionBox
    else if (jumbf_bytes.drop (headerSize jumbf_bytes + 4)).take 4
        ≠ JUMBF_DESC_TYPE then
      some .MissingDescriptionBox
    else if headerSize jumbf_bytes + 8 + 16 ≤ jumbf_bytes.length
        ∧ (jumbf_bytes.drop (headerSize jumbf_bytes + 8)).take 16
          ≠ C2PA_MANIFEST_STORE_UUID then
      some .InvalidC2paUuid
    else none
  else none

/-- The validation result the claim describes: valid with no issues, or
invalid with exactly the first failing check's issue. -/
def jumbfClaimResult (jumbf_bytes : List Nat) (strict : Bool) : ValidationResult :=
  match jumbfClaimIssue jumbf_bytes strict with
  | some c => ⟨false, [c]⟩
  | none => ⟨true, []⟩

theorem validate_jumbf_eq_claim (b : List Nat) (strict : Bool) :
    validate_jumbf_structure b strict = jumbfClaimResult b strict := by
  unfold validate_jumbf_structure jumbfClaimResult jumbfClaimIssue
  by_cases h1 : b.length = 0
  · rw [if_pos h1, if_pos h1]
  rw [if_neg h1, if_neg h1]
  by_cases h2 : b.length < 8
  · rw [if_pos h2, if_pos h2]
  rw [if_neg h2, if_neg h2]
  by_cases h3 : readBE32 b 0 = 1 ∧ b.length < 16
  · rw [if_pos h3, if_pos h3]
  rw [if_neg h3, if_neg h3]
  by_cases h4 : 2 ≤ readBE32 b 0 ∧ readBE32 b 0 < 8
  · rw [if_pos h4, if_pos h4]
  rw [if_neg h4, if_neg h4]
  by_cases h5 : b.length < effectiveSize b
  · rw [if_pos h5, if_pos h5]
  rw [if_neg h5, if_neg h5]
  by_cases h6 : (b.drop 4).take 4 ≠ JUMBF_SUPERBOX_TYPE
  · rw [if_pos h6, if_pos h6]
  rw [if_neg h6, if_neg h6]
  cases strict with
  | false => rfl
  | true =>
    simp only [if_true]
    by_cases h7 : b.length < headerSize b + 8
    · rw [if_pos h7, if_pos h7]
    rw [if_neg h7, if_neg h7]
    by_cases h8 : (b.drop (headerSize b + 4)).take 4 ≠ JUMBF_DESC_TYPE
    · rw [if_pos h8, if_pos h8]
    rw [if_neg h8, if_neg h8]
    by_cases h9 : headerSize b + 8 + 16 ≤ b.length
        ∧ (b.drop (headerSize b + 8)).take 16 ≠ C2PA_MANIFEST_STORE_UUID
    · rw [if_pos h9, if_pos h9]
    rw [if_neg h9, if_neg h9]

theorem validate_jumbf_valid_iff (jumbf_bytes : List Nat) (strict : Bool) :
    (validate_jumbf_structure jumbf_bytes strict).valid = true ↔
      (validate_jumbf_structure jumbf_bytes strict).issues = [] := by
  rw [validate_jumbf_eq_claim]
  unfold jumbfClaimResult
  cases jumbfClaimIssue jumbf_bytes strict <;> simp

/-- C6: the structural validator reports at most one issue, the first failing
check in the claim's order (empty, too-short header, truncated 64-bit size
extension, sizes 2-7, truncation against the effective length, wrong type tag,
then under strict the description-box and UUID checks), and is valid iff no
check fails. -/
theorem claim_C6 (jumbf_bytes : List Nat) (strict : Bool) :
    validate_jumbf_structure jumbf_bytes strict = jumbfClaimResult jumbf_bytes strict ∧
    (validate_jumbf_structure jumbf_bytes strict).issues.length ≤ 1 := by
  refine ⟨validate_jumbf_eq_claim jumbf_bytes strict, ?_⟩
  rw [validate_jumbf_eq_claim]
  unfold jumbfClaimResult
  cases jumbfClaimIssue jumbf_bytes strict <;> simp

/-- C7: the wrapper validator reports exactly the first failing check — length
below 13, magic, version, declared length against trailing byte count — and
otherwise returns exactly the issues of the non-strict structural check on the
trailing bytes, being valid iff that check produced none. -/
theorem claim_C7 (w : List Nat) :
    (w.length < 13 → validate_wrapper_bytes w = ⟨false, [.CorruptedWrapper]⟩) ∧
    (13 ≤ w.length → w.take 8 ≠ MAGIC →
      validate_wrapper_bytes w = ⟨false, [.InvalidMagic]⟩) ∧
    (13 ≤ w.length → w.take 8 = MAGIC → w.getD 8 0 ≠ VERSION →
      validate_wrapper_bytes w = ⟨false, [.UnsupportedVersion]⟩) ∧
    (13 ≤ w.length → w.take 8 = MAGIC → w.getD 8 0 = VERSION →
      readBE32 w 9 ≠ w.length - 13 →
      validate_wrapper_bytes w = ⟨false, [.LengthMismatch]⟩) ∧
    (13 ≤ w.length → w.take 8 = MAGIC → w.getD 8 0 = VERSION →
      readBE32 w 9 = w.length - 13 →
      (validate_wrapper_bytes w).issues =
        (validate_jumbf_structure (w.drop 13) false).issues ∧
      ((validate_wrapper_bytes w).valid = true ↔
        (validate_jumbf_structure (w.drop 13) false).issues = [])) := by
  refine ⟨?_, ?_, ?_, ?_, ?_⟩
  · intro h1
    unfold validate_wrapper_bytes
    rw [if_pos (by unfold HEADER_SIZE; omega)]
  · intro h1 h2
    unfold validate_wrapper_bytes
    rw [if_neg (by unfold HEADER_SIZE; omega), if_pos h2]
  · intro h1 h2 h3
    unfold validate_wrapper_bytes
    rw [if_neg (by unfold HEADER_SIZE; omega), if_neg (by rw [h2]; simp), if_pos h3]
  · intro h1 h2 h3 h4
    unfold validate_wrapper_bytes
    rw [if_neg (by unfold HEADER_SIZE; omega), if_neg (by rw [h2]; simp),
      if_neg (by rw [h3]; simp), if_pos (by unfold HEADER_SIZE; exact h4)]
  · intro h1 h2 h3 h4
    unfold validate_wrapper_bytes
    rw [if_neg (by unfold HEADER_SIZE; omega), if_neg (by rw [h2]; simp),
      if_neg (by rw [h3]; simp), if_neg (by unfold HEADER_SIZE; rw [h4]; simp)]
    exact ⟨rfl, validate_jumbf_valid_iff (w.drop HEADER_SIZE) false⟩

theorem claim_C7_witness :
    validate_wrapper_bytes [] = ⟨false, [.CorruptedWrapper]⟩ :=
  (claim_C7 []).1 (by decide)

/-- C9: with a 4-byte size field of 1, a 'jumb' type tag and at least 16
bytes, the non-strict structural check is valid whenever the 64-bit extended
size does not exceed the buffer length — no lower bound (not even the 16-byte
extended header, nor 0) is enforced on the extended size. -/
theorem claim_C9 (jumbf : List Nat) (h16 : 16 ≤ jumbf.length)
    (hsize : readBE32 jumbf 0 = 1)
    (htype : (jumbf.drop 4).take 4 = JUMBF_SUPERBOX_TYPE)
    (hext : readBE64 jumbf 8 ≤ jumbf.length) :
    validate_jumbf_structure jumbf false = ⟨true, []⟩ := by
  have heff : effectiveSize jumbf = readBE64 jumbf 8 := by
    unfold effectiveSize
    rw [hsize]
    norm_num
  unfold validate_jumbf_structure
  rw [if_neg (by omega), if_neg (by omega),
    if_neg (fun hc => by omega),
    if_neg (fun hc => by rw [hsize] at hc; omega),
    if_neg (by rw [heff]; omega),
    if_neg (by rw [htype]; simp)]
  rfl

theorem claim_C9_witness :
    validate_jumbf_structure
      [0, 0, 0, 1, 0x6A, 0x75, 0x6D, 0x62, 0, 0, 0, 0, 0, 0, 0, 0] false =
      ⟨true, []⟩ :=
  claim_C9 _ (by decide) (by decide) (by decide) (by decide)

/-- C10: a length-consistent wrapper with empty payload (13 bytes, good magic
and version, declared length 0) is invalid with primary code EmptyManifest,
because the structural check runs on the empty trailing bytes. -/
theorem claim_C10 (w : List Nat) (hlen : w.length = 13) (hmagic : w.take 8 = MAGIC)
    (hver : w.getD 8 0 = VERSION) (hdecl : readBE32 w 9 = 0) :
    (validate_wrapper_bytes w).valid = false ∧
    (validate_wrapper_bytes w).primary_code = .EmptyManifest := by
  have hdrop : w.drop HEADER_SIZE = [] := by
    apply List.eq_nil_of_length_eq_zero
    rw [List.length_drop, hlen]
    rfl
  have hres : validate_wrapper_bytes w = ⟨false, [.EmptyManifest]⟩ := by
    unfold validate_wrapper_bytes
    rw [if_neg (by unfold HEADER_SIZE; omega), if_neg (by rw [hmagic]; simp),
      if_neg (by rw [hver]; simp),
      if_neg (by unfold HEADER_SIZE; rw [hdecl, hlen]; simp)]
    rw [hdrop]
    rfl
  rw [hres]
  exact ⟨rfl, rfl⟩

theorem claim_C10_witness :
    (validate_wrapper_bytes (MAGIC ++ [1, 0, 0, 0, 0])).valid = false ∧
    (validate_wrapper_bytes (MAGIC ++ [1, 0, 0, 0, 0])).primary_code =
      .EmptyManifest :=
  claim_C10 (MAGIC ++ [1, 0, 0, 0, 0]) (by decide) (by decide) (by decide) (by decide)

end C2paText
